import Mathlib

/-!
Verification of the page-level machinery of `rust-slabmalloc` (`src/pages.rs`):
a bit-per-slot occupancy tracker over `[u64; 8]`, the `AllocablePage` trait's
derived `allocate`/`deallocate`, the concrete `ObjectPage8k` constructor, and
the intrusive doubly linked `PageList`.

The embedding models  `u64` words as natural numbers below `2 ^ 64`; bitfields
are lists of words (the Rust code is an `impl Bitfield for [u64]`).  Machine
arithmetic that can overflow or underflow in Rust is carried out on `Nat` with
explicit truncation where the original semantics demands it.
-/

namespace SlabMalloc

/-! ### Definitions embedded from `src/pages.rs` -/

/-- The constant `u64::max_value()`. -/
def U64_MAX : Nat := 2 ^ 64 - 1

/-- Rust `core::alloc::Layout`: requested object size and alignment in bytes. -/
structure Layout where
  size : Nat
  align : Nat
deriving Repr, DecidableEq

/-- Fueled trailing-zero count: `tzAux fuel x` counts trailing zero bits of `x`,
saturating at `fuel`.  `tzAux 64 x` agrees with Rust `u64::trailing_zeros` for
every `x < 2 ^ 64` (in particular it is `64` at `x = 0`). -/
def tzAux : Nat → Nat → Nat
  | 0, _ => 0
  | fuel + 1, x => if x % 2 = 1 then 0 else 1 + tzAux fuel (x / 2)

/-- Models `u64::trailing_zeros`. -/
def trailing_zeros (x : Nat) : Nat := tzAux 64 x

/-- Models `Bitfield::is_allocated` for `[u64]`: test bit `idx % 64` of word
`idx / 64` (the code checks `self[base_idx] & (1 << bit_idx) > 0`). -/
def is_allocated (bf : List Nat) (idx : Nat) : Bool :=
  decide (0 < bf.getD (idx / 64) 0 &&& (1 <<< (idx % 64)))

/-- Models `Bitfield::set_bit`: `self[idx / 64] |= 1 << (idx % 64)`. -/
def set_bit (bf : List Nat) (idx : Nat) : List Nat :=
  bf.set (idx / 64) (bf.getD (idx / 64) 0 ||| (1 <<< (idx % 64)))

/-- Models `Bitfield::clear_bit`: `self[idx / 64] &= !(1 << (idx % 64))`, where
`!` is the 64-bit complement, i.e. xor with `u64::max_value()`. -/
def clear_bit (bf : List Nat) (idx : Nat) : List Nat :=
  bf.set (idx / 64) (bf.getD (idx / 64) 0 &&& (U64_MAX ^^^ (1 <<< (idx % 64))))

/-- Models `Bitfield::initialize` (renamed: `initialize` is a Lean keyword):
set every word to all-ones, then clear bits `0, …, relevant_bits - 1` where
`relevant_bits = min (capacity / for_size) (len * 64)`. -/
def initBits (bf : List Nat) (for_size capacity : Nat) : List Nat :=
  let ones := bf.map fun _ => U64_MAX
  let relevant_bits := min (capacity / for_size) (bf.length * 64)
  (List.range relevant_bits).foldl clear_bit ones

/-- Loop of `Bitfield::first_fit`, scanning the remaining words `ws`;
`base_idx` is the position of the head of `ws` in the full bitfield.  A word
equal to all-ones is skipped; otherwise the lowest zero bit gives a candidate
slot: if its byte offset overlaps the metadata region the whole search stops
with `none`, if the alignment check fails the scan moves to the next word. -/
def firstFitLoop (base_addr : Nat) (l : Layout) (page_size metadata_size : Nat) :
    List Nat → Nat → Option (Nat × Nat)
  | [], _ => none
  | w :: ws, base_idx =>
    if w = U64_MAX then
      firstFitLoop base_addr l page_size metadata_size ws (base_idx + 1)
    else
      if ¬ ((base_idx * 64 + trailing_zeros (U64_MAX ^^^ w)) * l.size ≤
            page_size - metadata_size - l.size) then
        none
      else
        if (base_addr + (base_idx * 64 + trailing_zeros (U64_MAX ^^^ w)) * l.size)
              % l.align = 0 ∧
            w &&& (1 <<< trailing_zeros (U64_MAX ^^^ w)) = 0 then
          some (base_idx * 64 + trailing_zeros (U64_MAX ^^^ w),
            base_addr + (base_idx * 64 + trailing_zeros (U64_MAX ^^^ w)) * l.size)
        else firstFitLoop base_addr l page_size metadata_size ws (base_idx + 1)

/-- Models `Bitfield::first_fit` for `[u64]`. -/
def first_fit (bf : List Nat) (base_addr : Nat) (l : Layout)
    (page_size metadata_size : Nat) : Option (Nat × Nat) :=
  firstFitLoop base_addr l page_size metadata_size bf 0

/-- Models `Bitfield::is_full`: the number of words different from all-ones
is zero. -/
def is_full (bf : List Nat) : Bool :=
  (bf.filter fun x => decide (¬ x = U64_MAX)).length == 0

/-- Loop of `Bitfield::all_free`; `idx` is the position of the head of `ws`
in the full bitfield. -/
def allFreeLoop (relevant_bits : Nat) : List Nat → Nat → Bool
  | [], _ => true
  | bitmap :: ws, idx =>
    if relevant_bits ≥ idx * 64 ∧ relevant_bits < (idx + 1) * 64 then
      let bits_that_should_be_free := relevant_bits - idx * 64
      let free_mask := (1 <<< bits_that_should_be_free) - 1
      free_mask &&& bitmap == 0
    else if bitmap = 0 then allFreeLoop relevant_bits ws (idx + 1)
    else false

/-- Models `Bitfield::all_free`. -/
def all_free (bf : List Nat) (relevant_bits : Nat) : Bool :=
  allFreeLoop relevant_bits bf 0

/-- A bitfield is well formed when every word is a machine `u64`. -/
def WF (bf : List Nat) : Prop := ∀ w ∈ bf, w < 2 ^ 64

/-- The state of an allocable page as seen by the `AllocablePage` trait's
derived `allocate`/`deallocate`: its own base address (the code computes
`&*self as usize`) and its occupancy bitfield. -/
structure Page where
  base_addr : Nat
  bitfield : List Nat
deriving Repr, DecidableEq

/-- Models `AllocablePage::allocate` where `page_size`/`metadata_size` stand
for the associated constants `SIZE`/`METADATA_SIZE`.  The second component is
the returned raw pointer, `none` standing for the null pointer of the
`first_fit`-miss branch. -/
def allocate (page_size metadata_size : Nat) (p : Page) (l : Layout) :
    Page × Option Nat :=
  match first_fit p.bitfield p.base_addr l page_size metadata_size with
  | some (idx, addr) => ({ p with bitfield := set_bit p.bitfield idx }, some addr)
  | none => (p, none)

/-- Models `AllocablePage::deallocate`: `page_offset = ptr & (SIZE - 1)`, then
two `assert!`s (offset is a multiple of the object size; the slot is marked
allocated) and a `clear_bit`.  A failed assertion is a Rust panic, modeled as
`none`; `some bf` is the new bitfield of the `Ok(())` path. -/
def deallocate (page_size : Nat) (p : Page) (ptr : Nat) (l : Layout) :
    Option (List Nat) :=
  if (ptr &&& (page_size - 1)) % l.size = 0 then
    if is_allocated p.bitfield ((ptr &&& (page_size - 1)) / l.size) then
      some (clear_bit p.bitfield ((ptr &&& (page_size - 1)) / l.size))
    else none
  else none

/-- Observable interface of the external `MappedPages` collaborator used by
`ObjectPage8k::new`: a start address, a writable flag (`mp.flags().is_writable()`)
and a size in bytes. -/
structure MappedPages where
  start_address : Nat
  writable : Bool
  size_in_bytes : Nat
deriving Repr, DecidableEq

/-- Metadata fields of `ObjectPage8k`; the raw `data` array is not observable
through any modeled operation and is omitted.  `next`/`prev` model the
`Rawlink` fields as an optional target, `none` being the null pointer of
`Rawlink::default()`. -/
structure ObjectPage8k where
  mp : MappedPages
  heap_id : Nat
  next : Option Nat
  prev : Option Nat
  bitfield : List Nat
deriving Repr, DecidableEq

/-- `ObjectPage8k::SIZE`. -/
def PAGE8K_SIZE : Nat := 8192

/-- Models `ObjectPage8k::new`: validates 8-KiB alignment, writability and
exact size, in that order, and otherwise returns the fresh page with an
all-zero bitfield and null links. -/
def ObjectPage8k.new (mp : MappedPages) (heap_id : Nat) :
    Except String ObjectPage8k :=
  if mp.start_address % PAGE8K_SIZE ≠ 0 then
    Except.error "The mapped pages for the heap are not aligned at 8k bytes"
  else if ¬ mp.writable then
    Except.error "Trying to create an allocable page but MappedPages were not writable"
  else if PAGE8K_SIZE ≠ mp.size_in_bytes then
    Except.error "MappedPages size does not equal allocable page size"
  else
    Except.ok
      { mp := mp, heap_id := heap_id, next := none, prev := none,
        bitfield := List.replicate 8 0 }

/-- Models `ObjectPage8k::clear_metadata`: reset tag, links, bitfield (the
backing `mp` is untouched by this method). -/
def ObjectPage8k.clear_metadata (p : ObjectPage8k) : ObjectPage8k :=
  { p with heap_id := 0, next := none, prev := none,
           bitfield := List.replicate 8 0 }

/-- The two `Rawlink` fields of a page; `none` models the null pointer. -/
structure Node where
  prev : Option Nat
  next : Option Nat
deriving Repr, DecidableEq

/-- Link state of every page, addressed by the page's identity (the raw
pointer value of the Rust code). -/
def Heap := Nat → Node

/-- Pointwise update of one page's links. -/
def Heap.update (h : Heap) (a : Nat) (v : Node) : Heap :=
  fun x => if x = a then v else h x

/-- Models `PageList`: the optional head pointer and the element counter.
The pages' link fields (which in Rust live inside the pages) are carried
alongside as the heap. -/
structure ListState where
  heap : Heap
  head : Option Nat
  elements : Nat

/-- Models `PageList::insert_front`, following the code's write order: the
new head's `prev` becomes null; if the list was nonempty, the old head's
`prev` points to the new head and the new head's `next` to the old head (the
empty case leaves the new head's `next` untouched, exactly as the code
does). -/
def insert_front (s : ListState) (p : Nat) : ListState :=
  match s.head with
  | none =>
    { heap := s.heap.update p { s.heap p with prev := none },
      head := some p, elements := s.elements + 1 }
  | some hd =>
    let h1 := s.heap.update p { s.heap p with prev := none }
    let h2 := h1.update hd { h1 hd with prev := some p }
    let h3 := h2.update p { h2 p with next := some hd }
    { heap := h3, head := some p, elements := s.elements + 1 }

/-- The heap after `PageList::remove_from_list(p)`: splice on the `prev`
side, then on the `next` side, then null both of `p`'s own links, each step
reading the current link values as the code does. -/
def removeHeap (h : Heap) (p : Nat) : Heap :=
  let h1 := match (h p).prev with
    | none => h
    | some prev => h.update prev { h prev with next := (h p).next }
  let h2 := match (h1 p).next with
    | none => h1
    | some next => h1.update next { h1 next with prev := (h1 p).prev }
  h2.update p { prev := none, next := none }

/-- Models `PageList::remove_from_list`: when `p` has no predecessor the head
becomes `p`'s successor; the counter is decremented. -/
def remove_from_list (s : ListState) (p : Nat) : ListState :=
  { heap := removeHeap s.heap p,
    head := match (s.heap p).prev with
            | none => (s.heap p).next
            | some _ => s.head,
    elements := s.elements - 1 }

/-- Models `PageList::pop`: removes and returns the head, clearing the new
head's `prev` and the removed node's links; on an empty list it returns
`none` and changes nothing. -/
def pop (s : ListState) : ListState × Option Nat :=
  match s.head with
  | none => (s, none)
  | some hd =>
    let h1 := match (s.heap hd).next with
      | none => s.heap
      | some n => s.heap.update n { s.heap n with prev := none }
    ({ heap := h1.update hd { prev := none, next := none },
       head := (s.heap hd).next, elements := s.elements - 1 }, some hd)

/-- `chain h hd pr xs`: starting from the link value `hd`, the page ids `xs`
form a consistent doubly linked chain whose first node's `prev` is `pr` and
whose last node's `next` is null. -/
def chain (h : Heap) : Option Nat → Option Nat → List Nat → Prop
  | hd, _, [] => hd = none
  | hd, pr, x :: xs =>
    hd = some x ∧ (h x).prev = pr ∧ chain h (h x).next (some x) xs

/-- The list representation invariant: a duplicate-free `xs` is exactly the
sequence of nodes reachable from `head` along `next` links, and `elements`
counts it. -/
def isList (s : ListState) (xs : List Nat) : Prop :=
  chain s.heap s.head none xs ∧ s.elements = xs.length ∧ xs.Nodup

/-- `chainSeg h hd pr tl nx xs`: the ids `xs` form a doubly linked segment
starting at link value `hd` with incoming `prev` value `pr`; `tl` points to
the last node (or equals `pr` when the segment is empty) and `nx` is the
`next` value of the last node (or equals `hd` when empty). -/
def chainSeg (h : Heap) : Option Nat → Option Nat → Option Nat → Option Nat →
    List Nat → Prop
  | hd, pr, tl, nx, [] => hd = nx ∧ pr = tl
  | hd, pr, tl, nx, x :: xs =>
    hd = some x ∧ (h x).prev = pr ∧ chainSeg h (h x).next (some x) tl nx xs

/-- The three `PageList` operations, for reasoning about arbitrary
sequences. -/
inductive Op where
  | insert (p : Nat)
  | remove (p : Nat)
  | pop

def applyOp (s : ListState) : Op → ListState
  | .insert p => insert_front s p
  | .remove p => remove_from_list s p
  | .pop => (SlabMalloc.pop s).1

def run (s : ListState) : List Op → ListState
  | [] => s
  | op :: ops => run (applyOp s op) ops

/-- Ghost image of one operation on the chain of list members. -/
def ghostStep (xs : List Nat) : Op → List Nat
  | .insert p => p :: xs
  | .remove p => xs.erase p
  | .pop => xs.tail

/-- The side conditions of the spec's page state machine: a page is inserted
only while unlinked and not already a member, and `remove_from_list` is
applied only to a current member; `pop` is unrestricted. -/
def validFrom (s : ListState) (xs : List Nat) : List Op → Prop
  | [] => True
  | op :: ops =>
    (match op with
     | .insert p => s.heap p = { prev := none, next := none } ∧ p ∉ xs
     | .remove p => p ∈ xs
     | .pop => True) ∧
    validFrom (applyOp s op) (ghostStep xs op) ops

/-! ### Theorems -/

theorem land_pow_eq_zero_iff (w b : Nat) :
    w &&& (1 <<< b) = 0 ↔ w.testBit b = false := by
  rw [Nat.shiftLeft_eq, one_mul]
  constructor
  · intro h
    have h2 := congrArg (fun x => x.testBit b) h
    simpa [Nat.testBit_and, Nat.testBit_two_pow] using h2
  · intro h
    apply Nat.eq_of_testBit_eq
    intro i
    simp only [Nat.testBit_and, Nat.testBit_two_pow, Nat.zero_testBit]
    by_cases hib : b = i
    · subst hib; simp [h]
    · simp [hib]

theorem land_pow_pos_iff (w b : Nat) :
    0 < w &&& (1 <<< b) ↔ w.testBit b = true := by
  rw [Nat.pos_iff_ne_zero]
  constructor
  · intro h
    by_cases hb : w.testBit b = true
    · exact hb
    · exact absurd ((land_pow_eq_zero_iff w b).2 (by simpa using hb)) h
  · intro h h0
    rw [land_pow_eq_zero_iff] at h0
    simp [h] at h0

theorem testBit_U64_MAX (i : Nat) : U64_MAX.testBit i = decide (i < 64) :=
  Nat.testBit_two_pow_sub_one 64 i

theorem is_allocated_testBit (bf : List Nat) (idx : Nat) :
    is_allocated bf idx = (bf.getD (idx / 64) 0).testBit (idx % 64) := by
  have h := land_pow_pos_iff (bf.getD (idx / 64) 0) (idx % 64)
  unfold is_allocated
  by_cases hb : (bf.getD (idx / 64) 0).testBit (idx % 64) = true
  · rw [hb]
    exact decide_eq_true (h.mpr hb)
  · simp only [Bool.not_eq_true] at hb
    rw [hb]
    exact decide_eq_false (fun hc => by rw [h.mp hc] at hb; exact Bool.noConfusion hb)

theorem testBit_clear_word (w b i : Nat) (hi : i < 64) :
    (w &&& (U64_MAX ^^^ (1 <<< b))).testBit i = (w.testBit i && ! decide (b = i)) := by
  simp only [Nat.testBit_and, Nat.testBit_xor, Nat.shiftLeft_eq, one_mul,
    Nat.testBit_two_pow, testBit_U64_MAX]
  simp [hi]

theorem testBit_set_word (w b i : Nat) :
    (w ||| (1 <<< b)).testBit i = (w.testBit i || decide (b = i)) := by
  simp [Nat.testBit_or, Nat.shiftLeft_eq, Nat.testBit_two_pow]

theorem getD_set_same (l : List Nat) (i a : Nat) (h : i < l.length) :
    (l.set i a).getD i 0 = a := by
  simp [List.getD_eq_getElem?_getD, List.getElem?_set_self (by simpa using h)]

theorem getD_set_ne (l : List Nat) (i j a : Nat) (h : i ≠ j) :
    (l.set i a).getD j 0 = l.getD j 0 := by
  simp [List.getD_eq_getElem?_getD, List.getElem?_set_ne h]

theorem getD_out_of_range (l : List Nat) (i : Nat) (h : l.length ≤ i) :
    l.getD i 0 = 0 := by
  simp [List.getD_eq_getElem?_getD, List.getElem?_eq_none h]

theorem is_allocated_clear_bit_self (bf : List Nat) (j : Nat) :
    is_allocated (clear_bit bf j) j = false := by
  rw [is_allocated_testBit]
  unfold clear_bit
  by_cases hj : j / 64 < bf.length
  · rw [getD_set_same _ _ _ hj, testBit_clear_word _ _ _ (Nat.mod_lt j (by norm_num))]
    simp
  · rw [List.set_eq_of_length_le (by omega), getD_out_of_range _ _ (by omega)]
    simp

theorem is_allocated_clear_bit_ne (bf : List Nat) (j idx : Nat) (h : idx ≠ j) :
    is_allocated (clear_bit bf j) idx = is_allocated bf idx := by
  rw [is_allocated_testBit, is_allocated_testBit]
  unfold clear_bit
  by_cases hw : idx / 64 = j / 64
  · by_cases hj : j / 64 < bf.length
    · rw [hw, getD_set_same _ _ _ hj,
          testBit_clear_word _ _ _ (Nat.mod_lt idx (by norm_num))]
      have hb : ¬ j % 64 = idx % 64 := by omega
      simp [hb, hw]
    · rw [List.set_eq_of_length_le (by omega)]
  · rw [getD_set_ne _ _ _ _ (fun hh => hw hh.symm)]

theorem is_allocated_set_bit_self (bf : List Nat) (j : Nat) (h : j / 64 < bf.length) :
    is_allocated (set_bit bf j) j = true := by
  rw [is_allocated_testBit]
  unfold set_bit
  rw [getD_set_same _ _ _ h, testBit_set_word]
  simp

theorem is_allocated_set_bit_ne (bf : List Nat) (j idx : Nat) (h : idx ≠ j) :
    is_allocated (set_bit bf j) idx = is_allocated bf idx := by
  rw [is_allocated_testBit, is_allocated_testBit]
  unfold set_bit
  by_cases hw : idx / 64 = j / 64
  · by_cases hj : j / 64 < bf.length
    · rw [hw, getD_set_same _ _ _ hj, testBit_set_word]
      have hb : ¬ j % 64 = idx % 64 := by omega
      simp [hb]
    · rw [List.set_eq_of_length_le (by omega)]
  · rw [getD_set_ne _ _ _ _ (fun hh => hw hh.symm)]

theorem is_allocated_foldl_clear (n : Nat) (bf : List Nat) (idx : Nat) :
    is_allocated ((List.range n).foldl clear_bit bf) idx =
      if idx < n then false else is_allocated bf idx := by
  induction n with
  | zero => simp
  | succ n ih =>
    rw [List.range_succ, List.foldl_append, List.foldl_cons, List.foldl_nil]
    by_cases h : idx = n
    · subst h
      simp [is_allocated_clear_bit_self, Nat.lt_succ_self]
    · rw [is_allocated_clear_bit_ne _ _ _ h, ih]
      by_cases h2 : idx < n
      · simp [h2, Nat.lt_succ_of_lt h2]
      · have h3 : ¬ idx < n + 1 := by omega
        simp [h2, h3]

theorem is_allocated_map_ones (bf : List Nat) (idx : Nat) (h : idx / 64 < bf.length) :
    is_allocated (bf.map fun _ => U64_MAX) idx = true := by
  rw [is_allocated_testBit]
  have hm : (bf.map fun _ => U64_MAX).getD (idx / 64) 0 = U64_MAX := by
    rw [List.getD_eq_getElem?_getD, List.getElem?_map, List.getElem?_eq_getElem h]
    rfl
  rw [hm, testBit_U64_MAX]
  simp [Nat.mod_lt idx (by norm_num : (0:Nat) < 64)]

/-- C1: for every `object_size > 0` and capacity, after `initialize` on the
8-word bitfield, slot `idx < 512` reports free exactly when
`idx < min (capacity / object_size) 512`, regardless of prior contents. -/
theorem initBits_exact_free_prefix (bf : List Nat) (s c idx : Nat)
    (hlen : bf.length = 8) (hs : 0 < s) (hidx : idx < 512) :
    is_allocated (initBits bf s c) idx = false ↔ idx < min (c / s) 512 := by
  have h512 : bf.length * 64 = 512 := by rw [hlen]
  simp only [initBits, h512]
  rw [is_allocated_foldl_clear]
  by_cases h : idx < min (c / s) 512
  · simp [h]
  · rw [if_neg h, is_allocated_map_ones _ _ (by omega)]
    simp [h]

theorem initBits_exact_free_prefix_witness :
    ([1, 2, 3, 4, 5, 6, 7, 8] : List Nat).length = 8 ∧ 0 < 64 ∧ (200 : Nat) < 512 ∧
    (is_allocated (initBits [1, 2, 3, 4, 5, 6, 7, 8] 64 8096) 200 = false ↔
      200 < min (8096 / 64) 512) :=
  ⟨rfl, by decide, by decide,
    initBits_exact_free_prefix [1, 2, 3, 4, 5, 6, 7, 8] 64 8096 200 rfl
      (by decide) (by decide)⟩

theorem mod_two_pow_eq_zero_iff (w m : Nat) :
    w % 2 ^ m = 0 ↔ ∀ b, b < m → w.testBit b = false := by
  constructor
  · intro h b hb
    have h2 : (w % 2 ^ m).testBit b = false := by rw [h]; exact Nat.zero_testBit b
    rw [Nat.testBit_mod_two_pow] at h2
    simpa [hb] using h2
  · intro h
    apply Nat.eq_of_testBit_eq
    intro i
    rw [Nat.testBit_mod_two_pow, Nat.zero_testBit]
    by_cases hi : i < m
    · simp [hi, h i hi]
    · simp [hi]

theorem exists_testBit_of_ne_zero (w : Nat) (hw : w < 2 ^ 64) (h : w ≠ 0) :
    ∃ b, b < 64 ∧ w.testBit b = true := by
  obtain ⟨i, hi⟩ := Nat.ne_zero_implies_bit_true h
  refine ⟨i, ?_, hi⟩
  by_contra hge
  have hlt : w < 2 ^ i :=
    lt_of_lt_of_le hw (Nat.pow_le_pow_right (by norm_num) (by omega))
  rw [Nat.testBit_lt_two_pow hlt] at hi
  exact Bool.noConfusion hi

theorem is_full_iff (bf : List Nat) : is_full bf = true ↔ ∀ w ∈ bf, w = U64_MAX := by
  unfold is_full
  rw [beq_iff_eq, List.length_eq_zero, List.filter_eq_nil_iff]
  simp

theorem allFreeLoop_iff (n : Nat) :
    ∀ (ws : List Nat) (k : Nat), (∀ w ∈ ws, w < 2 ^ 64) → k * 64 ≤ n →
      (allFreeLoop n ws k = true ↔
        ∀ j b, j < ws.length → b < 64 → (k + j) * 64 + b < n →
          (ws.getD j 0).testBit b = false)
  | [], k, _, _ => by simp [allFreeLoop]
  | w :: ws, k, hwf, hk => by
    unfold allFreeLoop
    by_cases hb : n ≥ k * 64 ∧ n < (k + 1) * 64
    · rw [if_pos hb]
      show ((1 <<< (n - k * 64)) - 1 &&& w == 0) = true ↔ _
      rw [beq_iff_eq, Nat.shiftLeft_eq, one_mul, Nat.and_comm,
        Nat.and_pow_two_sub_one_eq_mod, mod_two_pow_eq_zero_iff]
      constructor
      · intro h j b hj hb64 hlt
        cases j with
        | zero =>
          rw [List.getD_cons_zero]
          exact h b (by omega)
        | succ j' => omega
      · intro h b hblt
        have h2 := h 0 b (by simp) (by omega) (by omega)
        rwa [List.getD_cons_zero] at h2
    · rw [if_neg hb]
      have hk1 : (k + 1) * 64 ≤ n := by omega
      by_cases hw0 : w = 0
      · rw [if_pos hw0]
        rw [allFreeLoop_iff n ws (k + 1)
          (fun u hu => hwf u (List.mem_cons_of_mem _ hu)) hk1]
        constructor
        · intro h j b hj hb64 hlt
          cases j with
          | zero =>
            rw [List.getD_cons_zero, hw0]
            exact Nat.zero_testBit b
          | succ j' =>
            rw [List.getD_cons_succ]
            exact h j' b (by simpa using hj) hb64 (by omega)
        · intro h j b hj hb64 hlt
          have h2 := h (j + 1) b (by simpa using hj) hb64 (by omega)
          rwa [List.getD_cons_succ] at h2
      · rw [if_neg hw0]
        constructor
        · intro h
          exact absurd h (by simp)
        · intro h
          obtain ⟨b, hb64, hbit⟩ :=
            exists_testBit_of_ne_zero w (hwf w (List.mem_cons_self _ _)) hw0
          have h2 := h 0 b (by simp) hb64 (by omega)
          rw [List.getD_cons_zero] at h2
          rw [h2] at hbit
          exact Bool.noConfusion hbit

/-- C5: `is_full` is true iff every word is all-ones (no free bit anywhere),
and for every `n ≤ 512`, `all_free n` is true iff every slot with index
below `n` is clear, bits at index `n` or above being ignored even when set. -/
theorem is_full_and_all_free_spec (bf : List Nat) (hlen : bf.length = 8)
    (hwf : WF bf) :
    (is_full bf = true ↔ ∀ w ∈ bf, w = U64_MAX) ∧
    (∀ n, n ≤ 512 →
      (all_free bf n = true ↔ ∀ idx, idx < n → is_allocated bf idx = false)) := by
  refine ⟨is_full_iff bf, fun n hn => ?_⟩
  rw [all_free, allFreeLoop_iff n bf 0 hwf (by omega)]
  constructor
  · intro h idx hidx
    rw [is_allocated_testBit]
    have h2 := h (idx / 64) (idx % 64) (by rw [hlen]; omega) (by omega) (by omega)
    exact h2
  · intro h j b hj hb hlt
    have h2 := h (j * 64 + b) (by omega)
    rw [is_allocated_testBit] at h2
    have hq : (j * 64 + b) / 64 = j := by omega
    have hr : (j * 64 + b) % 64 = b := by omega
    rw [hq, hr] at h2
    exact h2

theorem is_full_and_all_free_spec_witness :
    (([3, 0, 0, 0, 0, 0, 0, 0] : List Nat).length = 8 ∧
      WF [3, 0, 0, 0, 0, 0, 0, 0]) ∧
    (all_free [3, 0, 0, 0, 0, 0, 0, 0] 512 = true ↔
      ∀ idx, idx < 512 → is_allocated [3, 0, 0, 0, 0, 0, 0, 0] idx = false) :=
  ⟨⟨rfl, by unfold WF; decide⟩,
    (is_full_and_all_free_spec [3, 0, 0, 0, 0, 0, 0, 0] rfl
      (by unfold WF; decide)).2 512 (by decide)⟩

theorem tzAux_spec : ∀ (fuel x : Nat), x ≠ 0 → x < 2 ^ fuel →
    x.testBit (tzAux fuel x) = true ∧ ∀ j, j < tzAux fuel x → x.testBit j = false
  | 0, x, hx, hlt => absurd (Nat.lt_one_iff.mp hlt) hx
  | fuel + 1, x, hx, hlt => by
    unfold tzAux
    by_cases h2 : x % 2 = 1
    · rw [if_pos h2]
      exact ⟨by simp [Nat.testBit_zero, h2], fun j hj => absurd hj (by omega)⟩
    · rw [if_neg h2]
      have hx2 : x / 2 ≠ 0 := by omega
      have hlt2 : x / 2 < 2 ^ fuel := by
        have hp : (2 : Nat) ^ (fuel + 1) = 2 ^ fuel * 2 := by ring
        rw [hp] at hlt
        omega
      obtain ⟨ht, hb⟩ := tzAux_spec fuel (x / 2) hx2 hlt2
      refine ⟨by rw [Nat.add_comm 1 _, Nat.testBit_add_one]; exact ht, fun j hj => ?_⟩
      cases j with
      | zero => simp [Nat.testBit_zero, h2]
      | succ j' =>
        rw [Nat.testBit_add_one]
        exact hb j' (by omega)

theorem tzAux_eq_of (fuel : Nat) : ∀ (x m : Nat), m < fuel → x.testBit m = true →
    (∀ j, j < m → x.testBit j = false) → tzAux fuel x = m := by
  induction fuel with
  | zero => intro x m hm; omega
  | succ fuel ih =>
    intro x m hm ht hb
    unfold tzAux
    by_cases h2 : x % 2 = 1
    · rw [if_pos h2]
      rcases Nat.eq_zero_or_pos m with hm0 | hm0
      · exact hm0.symm
      · have hc := hb 0 hm0
        simp [Nat.testBit_zero, h2] at hc
    · rw [if_neg h2]
      have hm0 : m ≠ 0 := by
        intro h
        subst h
        simp [Nat.testBit_zero, h2] at ht
      obtain ⟨m', rfl⟩ := Nat.exists_eq_succ_of_ne_zero hm0
      rw [ih (x / 2) m' (by omega) (by rw [← Nat.testBit_add_one]; exact ht)
        (fun j hj => by rw [← Nat.testBit_add_one]; exact hb (j + 1) (by omega))]
      omega

theorem U64_MAX_lt : U64_MAX < 2 ^ 64 := by
  have h0 : 0 < 2 ^ 64 := Nat.two_pow_pos 64
  unfold U64_MAX
  omega

theorem testBit_not_word (w i : Nat) (hi : i < 64) :
    (U64_MAX ^^^ w).testBit i = ! w.testBit i := by
  rw [Nat.testBit_xor, testBit_U64_MAX]
  simp [hi]

theorem not_word_ne_zero (w : Nat) (hne : w ≠ U64_MAX) : U64_MAX ^^^ w ≠ 0 := by
  intro h
  exact hne (Nat.xor_eq_zero.mp h).symm

theorem not_word_lt (w : Nat) (hw : w < 2 ^ 64) : U64_MAX ^^^ w < 2 ^ 64 :=
  Nat.xor_lt_two_pow U64_MAX_lt hw

/-- The trailing-zero count of the complement of a non-full word is the index
of its lowest clear bit, and it is below 64. -/
theorem trailing_zeros_spec (w : Nat) (hw : w < 2 ^ 64) (hne : w ≠ U64_MAX) :
    trailing_zeros (U64_MAX ^^^ w) < 64 ∧
    w.testBit (trailing_zeros (U64_MAX ^^^ w)) = false ∧
    ∀ j, j < trailing_zeros (U64_MAX ^^^ w) → w.testBit j = true := by
  unfold trailing_zeros
  obtain ⟨ht, hb⟩ :=
    tzAux_spec 64 (U64_MAX ^^^ w) (not_word_ne_zero w hne) (not_word_lt w hw)
  have htz : tzAux 64 (U64_MAX ^^^ w) < 64 := by
    by_contra hge
    have hlt : U64_MAX ^^^ w < 2 ^ tzAux 64 (U64_MAX ^^^ w) :=
      lt_of_lt_of_le (not_word_lt w hw)
        (Nat.pow_le_pow_right (by norm_num) (by omega))
    rw [Nat.testBit_lt_two_pow hlt] at ht
    exact Bool.noConfusion ht
  refine ⟨htz, ?_, fun j hj => ?_⟩
  · have h2 := ht
    rw [testBit_not_word w _ htz] at h2
    simpa using h2
  · have h2 := hb j hj
    rw [testBit_not_word w j (by omega)] at h2
    simpa using h2

theorem eq_U64_MAX_of_all_bits (w : Nat) (hw : w < 2 ^ 64)
    (h : ∀ b, b < 64 → w.testBit b = true) : w = U64_MAX := by
  apply Nat.eq_of_testBit_eq
  intro i
  rw [testBit_U64_MAX]
  by_cases hi : i < 64
  · simp [hi, h i hi]
  · have hlt : w < 2 ^ i :=
      lt_of_lt_of_le hw (Nat.pow_le_pow_right (by norm_num) (by omega))
    simp [hi, Nat.testBit_lt_two_pow hlt]

theorem firstFitLoop_some_inv (base_addr : Nat) (l : Layout) (ps ms : Nat) :
    ∀ (ws : List Nat) (k idx addr : Nat), (∀ w ∈ ws, w < 2 ^ 64) →
      firstFitLoop base_addr l ps ms ws k = some (idx, addr) →
      k * 64 ≤ idx ∧ idx < (k + ws.length) * 64 ∧
      addr = base_addr + idx * l.size ∧
      idx * l.size ≤ ps - ms - l.size ∧
      addr % l.align = 0 ∧
      (ws.getD (idx / 64 - k) 0).testBit (idx % 64) = false
  | [], k, idx, addr, _, h => by simp [firstFitLoop] at h
  | w :: ws, k, idx, addr, hwf, h => by
    have hwlt : w < 2 ^ 64 := hwf w (List.mem_cons_self _ _)
    have step : ∀ hrec : firstFitLoop base_addr l ps ms ws (k + 1) = some (idx, addr),
        k * 64 ≤ idx ∧ idx < (k + (w :: ws).length) * 64 ∧
        addr = base_addr + idx * l.size ∧
        idx * l.size ≤ ps - ms - l.size ∧
        addr % l.align = 0 ∧
        ((w :: ws).getD (idx / 64 - k) 0).testBit (idx % 64) = false := by
      intro hrec
      obtain ⟨h1, h2, h3, h4, h5, h6⟩ :=
        firstFitLoop_some_inv base_addr l ps ms ws (k + 1) idx addr
          (fun u hu => hwf u (List.mem_cons_of_mem _ hu)) hrec
      refine ⟨by omega, by simp only [List.length_cons]; omega, h3, h4, h5, ?_⟩
      have hk : idx / 64 - k = (idx / 64 - (k + 1)) + 1 := by omega
      rw [hk, List.getD_cons_succ]
      exact h6
    unfold firstFitLoop at h
    by_cases hmax : w = U64_MAX
    · rw [if_pos hmax] at h
      exact step h
    · rw [if_neg hmax] at h
      obtain ⟨htz, hfree, _⟩ := trailing_zeros_spec w hwlt hmax
      by_cases hcut : ¬ ((k * 64 + trailing_zeros (U64_MAX ^^^ w)) * l.size ≤
          ps - ms - l.size)
      · rw [if_pos hcut] at h
        exact absurd h (by simp)
      · rw [if_neg hcut] at h
        by_cases hok : (base_addr + (k * 64 + trailing_zeros (U64_MAX ^^^ w)) * l.size)
              % l.align = 0 ∧
            w &&& (1 <<< trailing_zeros (U64_MAX ^^^ w)) = 0
        · rw [if_pos hok] at h
          have hidx : idx = k * 64 + trailing_zeros (U64_MAX ^^^ w) := by
            have := (Option.some.injEq _ _).mp h
            exact (Prod.mk.injEq _ _ _ _).mp this |>.1.symm
          have haddr : addr =
              base_addr + (k * 64 + trailing_zeros (U64_MAX ^^^ w)) * l.size := by
            have := (Option.some.injEq _ _).mp h
            exact (Prod.mk.injEq _ _ _ _).mp this |>.2.symm
          have hq : idx / 64 = k := by omega
          have hr : idx % 64 = trailing_zeros (U64_MAX ^^^ w) := by omega
          refine ⟨by omega, by simp only [List.length_cons]; omega, ?_, ?_, ?_, ?_⟩
          · rw [haddr, hidx]
          · rw [hidx]; omega
          · rw [haddr]
            exact hok.1
          · rw [hq, hr]
            simp only [Nat.sub_self, List.getD_cons_zero]
            exact (land_pow_eq_zero_iff w _).mp hok.2
        · rw [if_neg hok] at h
          exact step h

theorem first_fit_some_inv (bf : List Nat) (base : Nat) (l : Layout)
    (ps ms idx addr : Nat) (hwf : WF bf)
    (h : first_fit bf base l ps ms = some (idx, addr)) :
    idx < bf.length * 64 ∧ addr = base + idx * l.size ∧
    idx * l.size ≤ ps - ms - l.size ∧ addr % l.align = 0 ∧
    is_allocated bf idx = false := by
  obtain ⟨h1, h2, h3, h4, h5, h6⟩ :=
    firstFitLoop_some_inv base l ps ms bf 0 idx addr hwf h
  refine ⟨by omega, h3, h4, h5, ?_⟩
  rw [is_allocated_testBit]
  simpa using h6

theorem firstFitLoop_skip_allones (base : Nat) (l : Layout) (ps ms : Nat) :
    ∀ (pre rest : List Nat) (k : Nat), (∀ u ∈ pre, u = U64_MAX) →
      firstFitLoop base l ps ms (pre ++ rest) k =
        firstFitLoop base l ps ms rest (k + pre.length)
  | [], rest, k, _ => by simp
  | u :: pre, rest, k, h => by
    rw [List.cons_append]
    have he : k + 1 + pre.length = k + (u :: pre).length := by
      simp only [List.length_cons]
      omega
    calc firstFitLoop base l ps ms (u :: (pre ++ rest)) k
        = firstFitLoop base l ps ms (pre ++ rest) (k + 1) := by
          simp only [firstFitLoop]
          rw [if_pos (h u (List.mem_cons_self _ _))]
      _ = firstFitLoop base l ps ms rest (k + 1 + pre.length) :=
          firstFitLoop_skip_allones base l ps ms pre rest (k + 1)
            (fun v hv => h v (List.mem_cons_of_mem _ hv))
      _ = firstFitLoop base l ps ms rest (k + (u :: pre).length) := by rw [he]

theorem firstFitLoop_some_cutoff (base : Nat) (l : Layout) (ps ms : Nat) :
    ∀ (ws : List Nat) (k idx addr : Nat),
      firstFitLoop base l ps ms ws k = some (idx, addr) →
      idx * l.size ≤ ps - ms - l.size
  | [], k, idx, addr, h => by simp [firstFitLoop] at h
  | w :: ws, k, idx, addr, h => by
    unfold firstFitLoop at h
    by_cases hmax : w = U64_MAX
    · rw [if_pos hmax] at h
      exact firstFitLoop_some_cutoff base l ps ms ws (k + 1) idx addr h
    · rw [if_neg hmax] at h
      by_cases hcut : ¬ ((k * 64 + trailing_zeros (U64_MAX ^^^ w)) * l.size ≤
          ps - ms - l.size)
      · rw [if_pos hcut] at h
        exact absurd h (by simp)
      · rw [if_neg hcut] at h
        by_cases hok : (base + (k * 64 + trailing_zeros (U64_MAX ^^^ w)) * l.size)
              % l.align = 0 ∧
            w &&& 1 <<< trailing_zeros (U64_MAX ^^^ w) = 0
        · rw [if_pos hok] at h
          have hidx : idx = k * 64 + trailing_zeros (U64_MAX ^^^ w) :=
            ((Prod.mk.injEq _ _ _ _).mp ((Option.some.injEq _ _).mp h)).1.symm
          rw [hidx]
          omega
        · rw [if_neg hok] at h
          exact firstFitLoop_some_cutoff base l ps ms ws (k + 1) idx addr h

/-- C4: when the lowest zero bit of the first not-all-ones word yields an
offset beyond `page_size - metadata_size - size`, `first_fit` returns `none`
immediately, whatever the later words hold; consequently every
`some (idx, addr)` result satisfies
`idx * size ≤ page_size - metadata_size - size`. -/
theorem first_fit_metadata_cutoff (base : Nat) (l : Layout) (ps ms : Nat) :
    (∀ (pre : List Nat) (w : Nat) (post : List Nat),
      (∀ u ∈ pre, u = U64_MAX) → w ≠ U64_MAX →
      (pre.length * 64 + trailing_zeros (U64_MAX ^^^ w)) * l.size >
        ps - ms - l.size →
      first_fit (pre ++ w :: post) base l ps ms = none) ∧
    (∀ (bf : List Nat) (idx addr : Nat),
      first_fit bf base l ps ms = some (idx, addr) →
      idx * l.size ≤ ps - ms - l.size) := by
  constructor
  · intro pre w post hpre hw hcut
    rw [first_fit, firstFitLoop_skip_allones base l ps ms pre (w :: post) 0 hpre]
    simp only [firstFitLoop, Nat.zero_add]
    rw [if_neg hw, if_pos (by omega)]
  · intro bf idx addr h
    exact firstFitLoop_some_cutoff base l ps ms bf 0 idx addr h

theorem first_fit_metadata_cutoff_witness :
    (∀ u ∈ ([] : List Nat), u = U64_MAX) ∧ (1 : Nat) ≠ U64_MAX ∧
    (([] : List Nat).length * 64 + trailing_zeros (U64_MAX ^^^ 1)) * (8000 : Nat) >
      8192 - 96 - 8000 ∧
    first_fit ([] ++ 1 :: []) 0 ⟨8000, 1⟩ 8192 96 = none :=
  ⟨by simp, by decide, by decide,
    (first_fit_metadata_cutoff 0 ⟨8000, 1⟩ 8192 96).1 [] 1 []
      (by simp) (by decide) (by decide)⟩

/-- C2 counterexample: take the 8-word bitfield whose word 0 is
`U64_MAX - 6` (slots 1 and 2 free, all other slots allocated), base address 0,
layout size 1 and alignment 2, page size 8192, metadata size 96.  Slot `k = 2`
is free, its offset 2 fits inside the data area, its address 2 is 2-aligned,
slot 0 is allocated and slot 1 has the alignment-failing address 1 — yet
`first_fit` returns `none`, not `some (2, 2)`: the scan only ever examines the
lowest zero bit of each word, so an aligned free slot sitting behind a
misaligned free slot in the same word is skipped. -/
theorem first_fit_not_lowest_aligned_cex :
    is_allocated ((U64_MAX - 6) :: List.replicate 7 U64_MAX) 2 = false ∧
    2 * 1 ≤ 8192 - 96 - 1 ∧
    (0 + 2 * 1) % 2 = 0 ∧
    is_allocated ((U64_MAX - 6) :: List.replicate 7 U64_MAX) 0 = true ∧
    (is_allocated ((U64_MAX - 6) :: List.replicate 7 U64_MAX) 1 = false ∧
      (0 + 1 * 1) % 2 ≠ 0) ∧
    first_fit ((U64_MAX - 6) :: List.replicate 7 U64_MAX) 0 ⟨1, 2⟩ 8192 96 ≠
      some (2, 0 + 2 * 1) := by
  decide

theorem firstFitLoop_hits (base : Nat) (l : Layout) (ps ms : Nat) :
    ∀ (ws : List Nat) (ki k : Nat), (∀ w ∈ ws, w < 2 ^ 64) →
      ki * 64 ≤ k → k < (ki + ws.length) * 64 →
      (ws.getD (k / 64 - ki) 0).testBit (k % 64) = false →
      (∀ j, ki * 64 ≤ j → j < k →
        (ws.getD (j / 64 - ki) 0).testBit (j % 64) = true) →
      k * l.size ≤ ps - ms - l.size →
      (base + k * l.size) % l.align = 0 →
      firstFitLoop base l ps ms ws ki = some (k, base + k * l.size)
  | [], ki, k, _, hlo, hhi, _, _, _, _ => by
    simp only [List.length_nil] at hhi
    omega
  | w :: ws, ki, k, hwf, hlo, hhi, hfree, hbelow, hfit, halign => by
    have hw : w < 2 ^ 64 := hwf w (List.mem_cons_self _ _)
    by_cases hk : k / 64 = ki
    · have hfree0 : w.testBit (k % 64) = false := by
        have h2 := hfree
        rw [hk, Nat.sub_self, List.getD_cons_zero] at h2
        exact h2
      have hbits : ∀ b, b < k % 64 → w.testBit b = true := by
        intro b hb
        have hj := hbelow (ki * 64 + b) (by omega) (by omega)
        have hq : (ki * 64 + b) / 64 - ki = 0 := by omega
        have hr : (ki * 64 + b) % 64 = b := by omega
        rw [hq, hr, List.getD_cons_zero] at hj
        exact hj
      have hne : w ≠ U64_MAX := by
        intro he
        rw [he, testBit_U64_MAX] at hfree0
        have hm : k % 64 < 64 := by omega
        simp [hm] at hfree0
      have htz : trailing_zeros (U64_MAX ^^^ w) = k % 64 := by
        unfold trailing_zeros
        apply tzAux_eq_of 64 _ _ (by omega)
        · rw [testBit_not_word w _ (by omega), hfree0]
          rfl
        · intro j hj
          rw [testBit_not_word w j (by omega), hbits j hj]
          rfl
      unfold firstFitLoop
      rw [if_neg hne, htz]
      have hidx : ki * 64 + k % 64 = k := by omega
      rw [hidx]
      rw [if_neg (not_not_intro hfit)]
      rw [if_pos ⟨halign, (land_pow_eq_zero_iff w (k % 64)).mpr hfree0⟩]
    · have hki : ki + 1 ≤ k / 64 := by omega
      have hallm : w = U64_MAX := by
        apply eq_U64_MAX_of_all_bits w hw
        intro b hb
        have hj := hbelow (ki * 64 + b) (by omega) (by omega)
        have hq : (ki * 64 + b) / 64 - ki = 0 := by omega
        have hr : (ki * 64 + b) % 64 = b := by omega
        rw [hq, hr, List.getD_cons_zero] at hj
        exact hj
      unfold firstFitLoop
      rw [if_pos hallm]
      apply firstFitLoop_hits base l ps ms ws (ki + 1) k
        (fun u hu => hwf u (List.mem_cons_of_mem _ hu))
        (by omega) (by simp only [List.length_cons] at hhi; omega)
        ?_ ?_ hfit halign
      · have h2 : k / 64 - ki = (k / 64 - (ki + 1)) + 1 := by omega
        rw [h2, List.getD_cons_succ] at hfree
        exact hfree
      · intro j hjlo hjk
        have h2 : j / 64 - ki = (j / 64 - (ki + 1)) + 1 := by omega
        have hj := hbelow j (by omega) hjk
        rw [h2, List.getD_cons_succ] at hj
        exact hj

/-- C2 (amended): if slot `k` is free, its offset fits inside the data area,
its address satisfies the alignment, and every slot with index below `k` is
allocated, then `first_fit` returns `some (k, base + k * size)`.  (The
original claim also allowed slots below `k` that are free but fail the
alignment; the counterexample shows `first_fit` then moves to the next word
and never reaches `k`.) -/
theorem first_fit_finds_lowest_when_below_allocated (bf : List Nat)
    (base : Nat) (l : Layout) (ps ms k : Nat) (hwf : WF bf)
    (hk : k < bf.length * 64)
    (hfree : is_allocated bf k = false)
    (hfit : k * l.size ≤ ps - ms - l.size)
    (halign : (base + k * l.size) % l.align = 0)
    (hbelow : ∀ j, j < k → is_allocated bf j = true) :
    first_fit bf base l ps ms = some (k, base + k * l.size) := by
  rw [first_fit]
  apply firstFitLoop_hits base l ps ms bf 0 k hwf (by omega) (by omega)
  · rw [is_allocated_testBit] at hfree
    simpa using hfree
  · intro j _ hj
    have h2 := hbelow j hj
    rw [is_allocated_testBit] at h2
    simpa using h2
  · exact hfit
  · exact halign

theorem first_fit_finds_lowest_witness :
    WF (1 :: List.replicate 7 0) ∧ (1 : Nat) < (1 :: List.replicate 7 0).length * 64 ∧
    is_allocated (1 :: List.replicate 7 0) 1 = false ∧
    1 * 64 ≤ 8192 - 96 - 64 ∧ (8192 + 1 * 64) % 8 = 0 ∧
    (∀ j, j < 1 → is_allocated (1 :: List.replicate 7 0) j = true) ∧
    first_fit (1 :: List.replicate 7 0) 8192 ⟨64, 8⟩ 8192 96 =
      some (1, 8192 + 1 * 64) :=
  ⟨by unfold WF; decide, by decide, by decide, by decide, by decide, by decide,
    first_fit_finds_lowest_when_below_allocated (1 :: List.replicate 7 0) 8192
      ⟨64, 8⟩ 8192 96 1 (by unfold WF; decide) (by decide) (by decide)
      (by decide) (by decide) (by decide)⟩

theorem word_lt_of_WF (bf : List Nat) (hwf : WF bf) (i : Nat) :
    bf.getD i 0 < 2 ^ 64 := by
  by_cases h : i < bf.length
  · rw [List.getD_eq_getElem?_getD, List.getElem?_eq_getElem h]
    exact hwf _ (List.getElem_mem h)
  · rw [getD_out_of_range _ _ (by omega)]
    exact Nat.two_pow_pos 64

theorem set_getD_self (bf : List Nat) (i : Nat) :
    bf.set i (bf.getD i 0) = bf := by
  apply List.ext_getElem?
  intro n
  by_cases hn : i = n
  · subst hn
    by_cases hi : i < bf.length
    · rw [List.getElem?_set_self hi, List.getD_eq_getElem?_getD,
        List.getElem?_eq_getElem hi]
      rfl
    · rw [List.set_eq_of_length_le (by omega)]
  · rw [List.getElem?_set_ne hn]

theorem clear_bit_set_bit_cancel (bf : List Nat) (idx : Nat) (hwf : WF bf)
    (hfree : is_allocated bf idx = false) :
    clear_bit (set_bit bf idx) idx = bf := by
  by_cases hrange : idx / 64 < bf.length
  · unfold set_bit clear_bit
    rw [getD_set_same _ _ _ hrange, List.set_set]
    have hw : bf.getD (idx / 64) 0 < 2 ^ 64 := word_lt_of_WF bf hwf _
    have hbit : (bf.getD (idx / 64) 0).testBit (idx % 64) = false := by
      rw [is_allocated_testBit] at hfree
      exact hfree
    have hword : (bf.getD (idx / 64) 0 ||| 1 <<< (idx % 64)) &&&
        (U64_MAX ^^^ 1 <<< (idx % 64)) = bf.getD (idx / 64) 0 := by
      apply Nat.eq_of_testBit_eq
      intro i
      by_cases hi : i < 64
      · rw [testBit_clear_word _ _ _ hi, testBit_set_word]
        by_cases hbi : idx % 64 = i
        · rw [← hbi, hbit]
          simp
        · simp [hbi]
      · have hmask : U64_MAX ^^^ 1 <<< (idx % 64) < 2 ^ 64 := by
          apply Nat.xor_lt_two_pow U64_MAX_lt
          rw [Nat.shiftLeft_eq, one_mul]
          exact Nat.pow_lt_pow_right (by norm_num) (by omega)
        have hL : (bf.getD (idx / 64) 0 ||| 1 <<< (idx % 64)) &&&
            (U64_MAX ^^^ 1 <<< (idx % 64)) < 2 ^ 64 :=
          Nat.and_lt_two_pow _ hmask
        have hpow : (2 : Nat) ^ 64 ≤ 2 ^ i :=
          Nat.pow_le_pow_right (by norm_num) (by omega)
        rw [Nat.testBit_lt_two_pow (lt_of_lt_of_le hL hpow),
          Nat.testBit_lt_two_pow (lt_of_lt_of_le hw hpow)]
    rw [hword, set_getD_self]
  · unfold set_bit clear_bit
    rw [List.set_eq_of_length_le (by simp only [List.length_set]; omega),
      List.set_eq_of_length_le (by omega)]

/-- Shared core of the round-trip and double-free analyses: a successful
`allocate` on an 8192-aligned page yields a slot index whose bit was free,
and the matching `deallocate` restores the original bitfield. -/
theorem roundtrip_core (p p' : Page) (l : Layout) (ms addr : Nat)
    (hwf : WF p.bitfield) (halign : p.base_addr % 8192 = 0)
    (hsize : 0 < l.size) (hms : 0 < ms)
    (halloc : allocate 8192 ms p l = (p', some addr)) :
    ∃ idx, idx < p.bitfield.length * 64 ∧
      is_allocated p.bitfield idx = false ∧
      p'.bitfield = set_bit p.bitfield idx ∧
      (addr &&& (8192 - 1)) = idx * l.size ∧
      deallocate 8192 p' addr l = some p.bitfield := by
  unfold allocate at halloc
  cases hff : first_fit p.bitfield p.base_addr l 8192 ms with
  | none =>
    rw [hff] at halloc
    simp at halloc
  | some pair =>
    obtain ⟨idx, addr0⟩ := pair
    rw [hff] at halloc
    simp only [Prod.mk.injEq, Option.some.injEq] at halloc
    obtain ⟨hp', haddr0⟩ := halloc
    rw [haddr0] at hff
    obtain ⟨hlt, haddr, hcut, _, hfree⟩ :=
      first_fit_some_inv p.bitfield p.base_addr l 8192 ms idx addr hwf hff
    have hofflt : idx * l.size < 8192 := by omega
    have hmask : addr &&& (8192 - 1) = addr % 8192 := by
      have h13 : (8192 : Nat) - 1 = 2 ^ 13 - 1 := by norm_num
      rw [h13, Nat.and_pow_two_sub_one_eq_mod]
    have hoff : addr % 8192 = idx * l.size := by omega
    refine ⟨idx, hlt, hfree, hp'.symm ▸ rfl, by rw [hmask, hoff], ?_⟩
    unfold deallocate
    rw [hmask, hoff, Nat.mul_mod_left, if_pos rfl,
      Nat.mul_div_cancel _ hsize, ← hp']
    rw [is_allocated_set_bit_self _ _ (by omega), if_pos rfl]
    rw [clear_bit_set_bit_cancel p.bitfield idx hwf hfree]

/-- C3: on a page whose base address is aligned to the page size 8192, if
`allocate` returns a non-null address then an immediate `deallocate` of that
address with the same layout succeeds and restores the occupancy bitfield to
exactly its pre-allocate state. -/
theorem allocate_deallocate_roundtrip (p p' : Page) (l : Layout) (ms addr : Nat)
    (hwf : WF p.bitfield) (halign : p.base_addr % 8192 = 0)
    (hsize : 0 < l.size) (hms : 0 < ms)
    (halloc : allocate 8192 ms p l = (p', some addr)) :
    deallocate 8192 p' addr l = some p.bitfield := by
  obtain ⟨idx, _, _, _, _, hres⟩ :=
    roundtrip_core p p' l ms addr hwf halign hsize hms halloc
  exact hres

theorem allocate_deallocate_roundtrip_witness :
    WF (⟨8192, List.replicate 8 0⟩ : Page).bitfield ∧
    (⟨8192, List.replicate 8 0⟩ : Page).base_addr % 8192 = 0 ∧
    0 < (⟨64, 8⟩ : Layout).size ∧ 0 < (96 : Nat) ∧
    allocate 8192 96 ⟨8192, List.replicate 8 0⟩ ⟨64, 8⟩ =
      (⟨8192, [1, 0, 0, 0, 0, 0, 0, 0]⟩, some 8192) ∧
    deallocate 8192 ⟨8192, [1, 0, 0, 0, 0, 0, 0, 0]⟩ 8192 ⟨64, 8⟩ =
      some (List.replicate 8 0) :=
  ⟨by unfold WF; decide, by decide, by decide, by decide, by decide,
    allocate_deallocate_roundtrip ⟨8192, List.replicate 8 0⟩
      ⟨8192, [1, 0, 0, 0, 0, 0, 0, 0]⟩ ⟨64, 8⟩ 96 8192
      (by unfold WF; decide) (by decide) (by decide) (by decide) (by decide)⟩

/-- C6: after an allocate and one successful deallocate of the returned
address, a second deallocate of the same address with the same layout hits the
fatal `is_allocated` assertion (modeled as `none`: the call does not return
`Ok`), because the first deallocate cleared the slot's bit. -/
theorem double_free_hits_assert (p p' : Page) (l : Layout) (ms addr : Nat)
    (bf1 : List Nat)
    (hwf : WF p.bitfield) (halign : p.base_addr % 8192 = 0)
    (hsize : 0 < l.size) (hms : 0 < ms)
    (halloc : allocate 8192 ms p l = (p', some addr))
    (hde1 : deallocate 8192 p' addr l = some bf1) :
    deallocate 8192 { p' with bitfield := bf1 } addr l = none := by
  obtain ⟨idx, hlt, hfree, hbf', hoff, hres⟩ :=
    roundtrip_core p p' l ms addr hwf halign hsize hms halloc
  have hbf1 : bf1 = p.bitfield := by
    rw [hde1] at hres
    exact (Option.some.injEq _ _).mp hres.symm |>.symm
  unfold deallocate
  simp only
  rw [hoff, Nat.mul_mod_left, if_pos rfl, Nat.mul_div_cancel _ hsize, hbf1]
  rw [hfree]
  rfl

theorem double_free_hits_assert_witness :
    WF (⟨8192, List.replicate 8 0⟩ : Page).bitfield ∧
    (8192 : Nat) % 8192 = 0 ∧ 0 < (64 : Nat) ∧ 0 < (96 : Nat) ∧
    allocate 8192 96 ⟨8192, List.replicate 8 0⟩ ⟨64, 8⟩ =
      (⟨8192, [1, 0, 0, 0, 0, 0, 0, 0]⟩, some 8192) ∧
    deallocate 8192 ⟨8192, [1, 0, 0, 0, 0, 0, 0, 0]⟩ 8192 ⟨64, 8⟩ =
      some (List.replicate 8 0) ∧
    deallocate 8192 ⟨8192, List.replicate 8 0⟩ 8192 ⟨64, 8⟩ = none :=
  ⟨by unfold WF; decide, by decide, by decide, by decide, by decide, by decide,
    double_free_hits_assert ⟨8192, List.replicate 8 0⟩
      ⟨8192, [1, 0, 0, 0, 0, 0, 0, 0]⟩ ⟨64, 8⟩ 96 8192 (List.replicate 8 0)
      (by unfold WF; decide) (by decide) (by decide) (by decide) (by decide)
      (by decide)⟩

/-- C7: `allocate` never fails loudly: on a `first_fit` miss it returns the
null pointer (`none`) and leaves the bitfield unchanged, and on a hit
`some (idx, addr)` it sets bit `idx` and returns `addr`. -/
theorem allocate_hit_miss_behavior (ps ms : Nat) (p : Page) (l : Layout) :
    (first_fit p.bitfield p.base_addr l ps ms = none →
      allocate ps ms p l = (p, none)) ∧
    (∀ idx addr, first_fit p.bitfield p.base_addr l ps ms = some (idx, addr) →
      allocate ps ms p l =
        ({ p with bitfield := set_bit p.bitfield idx }, some addr)) := by
  constructor
  · intro h
    simp [allocate, h]
  · intro idx addr h
    simp [allocate, h]

theorem allocate_hit_miss_behavior_witness :
    first_fit (⟨0, List.replicate 8 U64_MAX⟩ : Page).bitfield
      (⟨0, List.replicate 8 U64_MAX⟩ : Page).base_addr ⟨64, 8⟩ 8192 96 = none ∧
    allocate 8192 96 ⟨0, List.replicate 8 U64_MAX⟩ ⟨64, 8⟩ =
      (⟨0, List.replicate 8 U64_MAX⟩, none) :=
  ⟨by decide,
    (allocate_hit_miss_behavior 8192 96 ⟨0, List.replicate 8 U64_MAX⟩ ⟨64, 8⟩).1
      (by decide)⟩

/-- C8: `ObjectPage8k::new` returns `Ok` exactly when the region's start
address is a multiple of 8192, the region is writable and its size is exactly
8192 bytes; any violation yields a descriptive `Err` (not a panic). -/
theorem objectPage8k_new_validation (mp : MappedPages) (heap_id : Nat) :
    ((∃ p, ObjectPage8k.new mp heap_id = Except.ok p) ↔
      (mp.start_address % 8192 = 0 ∧ mp.writable = true ∧
        mp.size_in_bytes = 8192)) ∧
    ((∃ e, ObjectPage8k.new mp heap_id = Except.error e) ↔
      ¬ (mp.start_address % 8192 = 0 ∧ mp.writable = true ∧
        mp.size_in_bytes = 8192)) := by
  unfold ObjectPage8k.new PAGE8K_SIZE
  by_cases h1 : mp.start_address % 8192 ≠ 0
  · rw [if_pos h1]
    constructor
    · constructor
      · rintro ⟨p, hp⟩
        exact Except.noConfusion hp
      · intro h
        exact absurd h.1 h1
    · constructor
      · intro _ h
        exact h1 h.1
      · intro _
        exact ⟨_, rfl⟩
  · rw [if_neg h1]
    push_neg at h1
    by_cases h2 : ¬ mp.writable
    · rw [if_pos h2]
      simp only [Bool.not_eq_true] at h2
      constructor
      · constructor
        · rintro ⟨p, hp⟩
          exact Except.noConfusion hp
        · intro h
          rw [h2] at h
          exact Bool.noConfusion h.2.1
      · constructor
        · intro _ h
          rw [h2] at h
          exact Bool.noConfusion h.2.1
        · intro _
          exact ⟨_, rfl⟩
    · rw [if_neg h2]
      simp only [Bool.not_eq_true, Bool.not_eq_false] at h2
      by_cases h3 : (8192 : Nat) ≠ mp.size_in_bytes
      · rw [if_pos h3]
        constructor
        · constructor
          · rintro ⟨p, hp⟩
            exact Except.noConfusion hp
          · intro h
            exact absurd h.2.2.symm h3
        · constructor
          · intro _ h
            exact h3 h.2.2.symm
          · intro _
            exact ⟨_, rfl⟩
      · rw [if_neg h3]
        push_neg at h3
        constructor
        · constructor
          · intro _
            exact ⟨h1, h2, h3.symm⟩
          · intro _
            exact ⟨_, rfl⟩
        · constructor
          · rintro ⟨e, he⟩
            exact Except.noConfusion he
          · intro h
            exact absurd ⟨h1, h2, h3.symm⟩ h

/-- C10: a successful `ObjectPage8k::new` leaves the bitfield all zeros —
every one of the 512 slots, including those overlapping the metadata region,
reports free, `is_empty 512` (i.e. `all_free 512`) holds and `is_full` does
not — and `clear_metadata` resets the bitfield to zeros, the heap id to 0 and
both links to null; neither performs the padding-slot initialization done by
`Bitfield::initialize`. -/
theorem new_and_clear_metadata_reset_state :
    (∀ (mp : MappedPages) (hid : Nat) (p : ObjectPage8k),
      ObjectPage8k.new mp hid = Except.ok p →
      p.bitfield = List.replicate 8 0 ∧
      (∀ i, i < 512 → is_allocated p.bitfield i = false) ∧
      all_free p.bitfield 512 = true ∧
      is_full p.bitfield = false) ∧
    (∀ q : ObjectPage8k,
      q.clear_metadata.heap_id = 0 ∧ q.clear_metadata.next = none ∧
      q.clear_metadata.prev = none ∧
      q.clear_metadata.bitfield = List.replicate 8 0) := by
  constructor
  · intro mp hid p hp
    have hbf : p.bitfield = List.replicate 8 0 := by
      unfold ObjectPage8k.new at hp
      by_cases h1 : mp.start_address % PAGE8K_SIZE ≠ 0
      · rw [if_pos h1] at hp
        exact Except.noConfusion hp
      · rw [if_neg h1] at hp
        by_cases h2 : ¬ mp.writable
        · rw [if_pos h2] at hp
          exact Except.noConfusion hp
        · rw [if_neg h2] at hp
          by_cases h3 : PAGE8K_SIZE ≠ mp.size_in_bytes
          · rw [if_pos h3] at hp
            exact Except.noConfusion hp
          · rw [if_neg h3] at hp
            injection hp with h
            rw [← h]
    refine ⟨hbf, ?_, ?_, ?_⟩
    · intro i hi
      rw [hbf, is_allocated_testBit]
      have hz : (List.replicate 8 (0 : Nat)).getD (i / 64) 0 = 0 := by
        rw [List.getD_eq_getElem?_getD, List.getElem?_replicate]
        by_cases h : i / 64 < 8 <;> simp [h]
      rw [hz]
      exact Nat.zero_testBit _
    · rw [hbf]
      decide
    · rw [hbf]
      decide
  · intro q
    exact ⟨rfl, rfl, rfl, rfl⟩

theorem new_and_clear_metadata_reset_witness :
    ObjectPage8k.new ⟨8192, true, 8192⟩ 7 =
      Except.ok ⟨⟨8192, true, 8192⟩, 7, none, none, List.replicate 8 0⟩ ∧
    (⟨⟨8192, true, 8192⟩, 7, none, none, List.replicate 8 0⟩ :
        ObjectPage8k).bitfield = List.replicate 8 0 ∧
    all_free (⟨⟨8192, true, 8192⟩, 7, none, none, List.replicate 8 0⟩ :
        ObjectPage8k).bitfield 512 = true :=
  ⟨rfl, (new_and_clear_metadata_reset_state.1 ⟨8192, true, 8192⟩ 7
      ⟨⟨8192, true, 8192⟩, 7, none, none, List.replicate 8 0⟩ rfl).1,
    (new_and_clear_metadata_reset_state.1 ⟨8192, true, 8192⟩ 7
      ⟨⟨8192, true, 8192⟩, 7, none, none, List.replicate 8 0⟩ rfl).2.2.1⟩

theorem Heap.update_self (h : Heap) (a : Nat) (v : Node) : h.update a v a = v := by
  unfold Heap.update
  rw [if_pos rfl]

theorem Heap.update_ne (h : Heap) (a : Nat) (v : Node) (x : Nat) (hx : x ≠ a) :
    h.update a v x = h x := by
  unfold Heap.update
  rw [if_neg hx]

theorem chain_nil (h : Heap) (hd pr : Option Nat) :
    chain h hd pr [] ↔ hd = none := Iff.rfl

theorem chain_cons (h : Heap) (hd pr : Option Nat) (x : Nat) (xs : List Nat) :
    chain h hd pr (x :: xs) ↔
      hd = some x ∧ (h x).prev = pr ∧ chain h (h x).next (some x) xs := Iff.rfl

theorem chain_update_not_mem (h : Heap) (a : Nat) (v : Node) :
    ∀ (xs : List Nat) (hd pr : Option Nat), a ∉ xs →
      (chain (h.update a v) hd pr xs ↔ chain h hd pr xs)
  | [], hd, pr, _ => Iff.rfl
  | x :: xs, hd, pr, hmem => by
    have hxa : x ≠ a := fun he => hmem (he ▸ List.mem_cons_self _ _)
    have hupd : h.update a v x = h x := Heap.update_ne h a v x hxa
    rw [chain_cons, chain_cons, hupd]
    constructor
    · rintro ⟨h1, h2, h3⟩
      exact ⟨h1, h2, (chain_update_not_mem h a v xs _ _
        (fun hm => hmem (List.mem_cons_of_mem _ hm))).mp h3⟩
    · rintro ⟨h1, h2, h3⟩
      exact ⟨h1, h2, (chain_update_not_mem h a v xs _ _
        (fun hm => hmem (List.mem_cons_of_mem _ hm))).mpr h3⟩

theorem chain_congr (h1 h2 : Heap) :
    ∀ (xs : List Nat) (hd pr : Option Nat), (∀ x ∈ xs, h1 x = h2 x) →
      (chain h1 hd pr xs ↔ chain h2 hd pr xs)
  | [], _, _, _ => Iff.rfl
  | x :: xs, hd, pr, hagree => by
    rw [chain_cons, chain_cons, hagree x (List.mem_cons_self _ _)]
    constructor
    · rintro ⟨a, b, c⟩
      exact ⟨a, b, (chain_congr h1 h2 xs _ _
        (fun y hy => hagree y (List.mem_cons_of_mem _ hy))).mp c⟩
    · rintro ⟨a, b, c⟩
      exact ⟨a, b, (chain_congr h1 h2 xs _ _
        (fun y hy => hagree y (List.mem_cons_of_mem _ hy))).mpr c⟩

theorem insert_front_preserves (s : ListState) (xs : List Nat) (p : Nat)
    (hl : isList s xs) (hp : s.heap p = { prev := none, next := none })
    (hmem : p ∉ xs) : isList (insert_front s p) (p :: xs) := by
  obtain ⟨hc, he, hn⟩ := hl
  cases hh : s.head with
  | none =>
    have hxs : xs = [] := by
      cases xs with
      | nil => rfl
      | cons y ys =>
        rw [chain_cons, hh] at hc
        exact Option.noConfusion hc.1
    subst hxs
    have hheap : (insert_front s p).heap =
        s.heap.update p { s.heap p with prev := none } := by
      unfold insert_front
      rw [hh]
    have hhead : (insert_front s p).head = some p := by
      unfold insert_front
      rw [hh]
    have helems : (insert_front s p).elements = s.elements + 1 := by
      unfold insert_front
      rw [hh]
    refine ⟨?_, ?_, by simp⟩
    · show chain (insert_front s p).heap (insert_front s p).head none [p]
      rw [hheap, hhead, chain_cons]
      refine ⟨rfl, ?_, ?_⟩
      · rw [Heap.update_self]
      · rw [Heap.update_self]
        show chain _ (s.heap p).next _ []
        rw [hp]
        rfl
    · show (insert_front s p).elements = 1
      rw [helems]
      simp only [List.length_nil] at he
      omega
  | some hd =>
    cases xs with
    | nil =>
      rw [chain_nil, hh] at hc
      exact Option.noConfusion hc
    | cons y ys =>
      rw [chain_cons, hh] at hc
      obtain ⟨hy, hprev, hrest⟩ := hc
      injection hy with hy
      subst hy
      have hphd : p ≠ hd := fun he2 => hmem (he2 ▸ List.mem_cons_self _ _)
      have hpys : p ∉ ys := fun hm => hmem (List.mem_cons_of_mem _ hm)
      have hhdys : hd ∉ ys := (List.nodup_cons.mp hn).1
      have hheap : (insert_front s p).heap =
          ((s.heap.update p { s.heap p with prev := none }).update hd
            { (s.heap.update p { s.heap p with prev := none }) hd with
                prev := some p }).update p
            { ((s.heap.update p { s.heap p with prev := none }).update hd
                { (s.heap.update p { s.heap p with prev := none }) hd with
                    prev := some p }) p with next := some hd } := by
        unfold insert_front
        rw [hh]
      have hhead : (insert_front s p).head = some p := by
        unfold insert_front
        rw [hh]
      have helems : (insert_front s p).elements = s.elements + 1 := by
        unfold insert_front
        rw [hh]
      have hHp : (insert_front s p).heap p = { prev := none, next := some hd } := by
        rw [hheap]
        simp [Heap.update, hphd]
      have hHhd : (insert_front s p).heap hd =
          { prev := some p, next := (s.heap hd).next } := by
        rw [hheap]
        simp [Heap.update, hphd, Ne.symm hphd]
      have hHother : ∀ x, x ≠ p → x ≠ hd → (insert_front s p).heap x = s.heap x := by
        intro x hxp hxhd
        rw [hheap]
        simp [Heap.update, hxp, hxhd]
      refine ⟨?_, ?_, List.nodup_cons.mpr ⟨hmem, hn⟩⟩
      · show chain (insert_front s p).heap (insert_front s p).head none (p :: hd :: ys)
        rw [hhead, chain_cons]
        refine ⟨rfl, by rw [hHp], ?_⟩
        rw [hHp]
        show chain _ (some hd) (some p) (hd :: ys)
        rw [chain_cons]
        refine ⟨rfl, by rw [hHhd], ?_⟩
        rw [hHhd]
        show chain _ ((s.heap hd).next) (some hd) ys
        rw [chain_congr _ s.heap ys _ _
          (fun x hx => hHother x (fun he2 => hpys (he2 ▸ hx))
            (fun he2 => hhdys (he2 ▸ hx)))]
        exact hrest
      · show (insert_front s p).elements = (p :: hd :: ys).length
        rw [helems, he]
        simp

theorem pop_preserves (s : ListState) (xs : List Nat) (hl : isList s xs) :
    isList (pop s).1 xs.tail := by
  obtain ⟨hc, he, hn⟩ := hl
  cases xs with
  | nil =>
    have hh : s.head = none := hc
    have hpop : (pop s).1 = s := by
      unfold pop
      rw [hh]
    rw [hpop]
    exact ⟨hc, he, hn⟩
  | cons hd rest =>
    rw [chain_cons] at hc
    obtain ⟨hhd, hprev, hrest⟩ := hc
    cases rest with
    | nil =>
      have hN : (s.heap hd).next = none := hrest
      have hpop : (pop s).1 =
          { heap := s.heap.update hd { prev := none, next := none },
            head := none, elements := s.elements - 1 } := by
        unfold pop
        simp only [hhd, hN]
      rw [hpop]
      refine ⟨rfl, ?_, by simp⟩
      simp only [List.length_cons, List.length_nil] at he
      simp only [List.tail_cons, List.length_nil]
      omega
    | cons y rest' =>
      rw [chain_cons] at hrest
      obtain ⟨hy, hyprev, hrest'⟩ := hrest
      have hhdy : hd ≠ y := fun he2 => (List.nodup_cons.mp hn).1
        (he2 ▸ List.mem_cons_self _ _)
      have hhdrest : hd ∉ rest' := fun hm => (List.nodup_cons.mp hn).1
        (List.mem_cons_of_mem _ hm)
      have hyrest : y ∉ rest' :=
        (List.nodup_cons.mp (List.nodup_cons.mp hn).2).1
      have hpop : (pop s).1 =
          { heap := (s.heap.update y { s.heap y with prev := none }).update hd
              { prev := none, next := none },
            head := (s.heap hd).next, elements := s.elements - 1 } := by
        unfold pop
        simp only [hhd, hy]
      have hheap2 : (pop s).1.heap =
          (s.heap.update y { s.heap y with prev := none }).update hd
            { prev := none, next := none } := by rw [hpop]
      have hhead2 : (pop s).1.head = (s.heap hd).next := by rw [hpop]
      have helems2 : (pop s).1.elements = s.elements - 1 := by rw [hpop]
      have hHy : ((s.heap.update y { s.heap y with prev := none }).update hd
          { prev := none, next := none }) y =
          { prev := none, next := (s.heap y).next } := by
        simp [Heap.update, hhdy, Ne.symm hhdy]
      have hHother : ∀ x, x ≠ y → x ≠ hd →
          ((s.heap.update y { s.heap y with prev := none }).update hd
            { prev := none, next := none }) x = s.heap x := by
        intro x hxy hxhd
        simp [Heap.update, hxy, hxhd]
      refine ⟨?_, ?_, (List.nodup_cons.mp hn).2⟩
      · show chain (pop s).1.heap (pop s).1.head none (y :: rest')
        rw [hheap2, hhead2, hy, chain_cons]
        refine ⟨rfl, by rw [hHy], ?_⟩
        rw [hHy]
        show chain _ ((s.heap y).next) (some y) rest'
        rw [chain_congr _ s.heap rest' _ _
          (fun x hx => hHother x (fun he2 => hyrest (he2 ▸ hx))
            (fun he2 => hhdrest (he2 ▸ hx)))]
        exact hrest'
      · show (pop s).1.elements = (y :: rest').length
        rw [helems2]
        simp only [List.length_cons] at he
        simp only [List.length_cons]
        omega

theorem chainSeg_nil (h : Heap) (hd pr tl nx : Option Nat) :
    chainSeg h hd pr tl nx [] ↔ hd = nx ∧ pr = tl := Iff.rfl

theorem chainSeg_cons (h : Heap) (hd pr tl nx : Option Nat) (x : Nat)
    (xs : List Nat) :
    chainSeg h hd pr tl nx (x :: xs) ↔
      hd = some x ∧ (h x).prev = pr ∧ chainSeg h (h x).next (some x) tl nx xs :=
  Iff.rfl

theorem chain_iff_seg (h : Heap) :
    ∀ (xs : List Nat) (hd pr : Option Nat),
      chain h hd pr xs ↔ ∃ tl, chainSeg h hd pr tl none xs
  | [], hd, pr => by
    rw [chain_nil]
    constructor
    · intro h1
      exact ⟨pr, h1, rfl⟩
    · rintro ⟨tl, h1, _⟩
      exact h1
  | x :: xs, hd, pr => by
    rw [chain_cons]
    constructor
    · rintro ⟨h1, h2, h3⟩
      obtain ⟨tl, h4⟩ := (chain_iff_seg h xs _ _).mp h3
      exact ⟨tl, h1, h2, h4⟩
    · rintro ⟨tl, h1, h2, h3⟩
      exact ⟨h1, h2, (chain_iff_seg h xs _ _).mpr ⟨tl, h3⟩⟩

theorem chainSeg_append (h : Heap) :
    ∀ (xs ys : List Nat) (hd pr tl nx : Option Nat),
      chainSeg h hd pr tl nx (xs ++ ys) ↔
        ∃ mid midtl, chainSeg h hd pr midtl mid xs ∧
          chainSeg h mid midtl tl nx ys
  | [], ys, hd, pr, tl, nx => by
    rw [List.nil_append]
    constructor
    · intro h1
      exact ⟨hd, pr, ⟨rfl, rfl⟩, h1⟩
    · rintro ⟨mid, midtl, ⟨h1, h2⟩, h3⟩
      rw [h1, h2]
      exact h3
  | x :: xs, ys, hd, pr, tl, nx => by
    rw [List.cons_append, chainSeg_cons]
    constructor
    · rintro ⟨h1, h2, h3⟩
      obtain ⟨mid, midtl, h4, h5⟩ := (chainSeg_append h xs ys _ _ _ _).mp h3
      exact ⟨mid, midtl, ⟨h1, h2, h4⟩, h5⟩
    · rintro ⟨mid, midtl, ⟨h1, h2, h3⟩, h4⟩
      exact ⟨h1, h2, (chainSeg_append h xs ys _ _ _ _).mpr ⟨mid, midtl, h3, h4⟩⟩

theorem chainSeg_congr (h1 h2 : Heap) :
    ∀ (xs : List Nat) (hd pr tl nx : Option Nat), (∀ x ∈ xs, h1 x = h2 x) →
      (chainSeg h1 hd pr tl nx xs ↔ chainSeg h2 hd pr tl nx xs)
  | [], _, _, _, _, _ => Iff.rfl
  | x :: xs, hd, pr, tl, nx, hagree => by
    rw [chainSeg_cons, chainSeg_cons, hagree x (List.mem_cons_self _ _)]
    constructor
    · rintro ⟨a, b, c⟩
      exact ⟨a, b, (chainSeg_congr h1 h2 xs _ _ _ _
        (fun y hy => hagree y (List.mem_cons_of_mem _ hy))).mp c⟩
    · rintro ⟨a, b, c⟩
      exact ⟨a, b, (chainSeg_congr h1 h2 xs _ _ _ _
        (fun y hy => hagree y (List.mem_cons_of_mem _ hy))).mpr c⟩

/-- The tail pointer of a nonempty segment designates its last node, whose
`next` is the segment's outgoing link. -/
theorem chainSeg_last (h : Heap) :
    ∀ (l : List Nat) (x : Nat) (hd pr tl nx : Option Nat),
      chainSeg h hd pr tl nx (x :: l) →
      ∃ q ∈ x :: l, tl = some q ∧ (h q).next = nx
  | [], x, hd, pr, tl, nx, hseg => by
    rw [chainSeg_cons, chainSeg_nil] at hseg
    exact ⟨x, List.mem_cons_self _ _, hseg.2.2.2.symm, hseg.2.2.1⟩
  | y :: l, x, hd, pr, tl, nx, hseg => by
    rw [chainSeg_cons] at hseg
    obtain ⟨q, hq1, hq2, hq3⟩ := chainSeg_last h l y _ _ tl nx hseg.2.2
    exact ⟨q, List.mem_cons_of_mem _ hq1, hq2, hq3⟩

/-- Surgery on the last node of a duplicate-free segment: redirecting the
last node's `next` (and nothing else) retargets the segment's outgoing
link. -/
theorem chainSeg_retarget (h h2 : Heap) (newnx : Option Nat) (q : Nat) :
    ∀ (l : List Nat) (hd pr tl oldnx : Option Nat), l ≠ [] →
      chainSeg h hd pr tl oldnx l → l.Nodup → tl = some q →
      (∀ x ∈ l, (h2 x).prev = (h x).prev) →
      (∀ x ∈ l, x ≠ q → (h2 x).next = (h x).next) →
      (h2 q).next = newnx →
      chainSeg h2 hd pr tl newnx l
  | [], _, _, _, _, hne, _, _, _, _, _, _ => absurd rfl hne
  | [x], hd, pr, tl, oldnx, _, hseg, _, htl, hpr, _, hq => by
    rw [chainSeg_cons, chainSeg_nil] at hseg
    obtain ⟨h1, h2', ⟨_, h4⟩⟩ := hseg
    have hxq : x = q := by
      rw [← h4] at htl
      exact (Option.some.injEq _ _).mp htl.symm |>.symm
    rw [chainSeg_cons, chainSeg_nil]
    refine ⟨h1, by rw [hpr x (List.mem_cons_self _ _)]; exact h2', ?_, h4⟩
    rw [hxq]
    exact hq
  | x :: y :: l, hd, pr, tl, oldnx, _, hseg, hnodup, htl, hpr, hnext, hq => by
    rw [chainSeg_cons] at hseg
    obtain ⟨h1, h2', h3⟩ := hseg
    have hy : (h x).next = some y := (chainSeg_cons h _ _ _ _ _ _).mp h3 |>.1
    obtain ⟨q', hq'1, hq'2, _⟩ := chainSeg_last h l y _ _ tl oldnx h3
    have hxq : x ≠ q := by
      intro he
      rw [htl] at hq'2
      have : q = q' := (Option.some.injEq _ _).mp hq'2
      rw [he, this] at hnodup
      exact (List.nodup_cons.mp hnodup).1 hq'1
    rw [chainSeg_cons]
    refine ⟨h1, by rw [hpr x (List.mem_cons_self _ _)]; exact h2', ?_⟩
    rw [hnext x (List.mem_cons_self _ _) hxq]
    exact chainSeg_retarget h h2 newnx q (y :: l) _ _ tl oldnx
      (List.cons_ne_nil _ _) h3
      (List.nodup_cons.mp hnodup).2 htl
      (fun z hz => hpr z (List.mem_cons_of_mem _ hz))
      (fun z hz hzq => hnext z (List.mem_cons_of_mem _ hz) hzq) hq

theorem remove_preserves (s : ListState) (xs : List Nat) (p : Nat)
    (hl : isList s xs) (hmem : p ∈ xs) :
    isList (remove_from_list s p) (xs.erase p) := by
  obtain ⟨hc, he, hn⟩ := hl
  obtain ⟨l, r, rfl⟩ := List.append_of_mem hmem
  have hnpr : (p :: r).Nodup := hn.of_append_right
  have hln : l.Nodup := hn.of_append_left
  have hdisj : l.Disjoint (p :: r) := List.disjoint_of_nodup_append hn
  have hpl : p ∉ l := fun hp2 => hdisj hp2 (List.mem_cons_self _ _)
  have hpr2 : p ∉ r := (List.nodup_cons.mp hnpr).1
  have hrn : r.Nodup := (List.nodup_cons.mp hnpr).2
  have herase : (l ++ p :: r).erase p = l ++ r := by
    rw [List.erase_append_right _ hpl, List.erase_cons_head]
  rw [herase]
  have hnlr : (l ++ r).Nodup :=
    hn.sublist (List.Sublist.append_left (List.sublist_cons_self p r) l)
  have hheapR : (remove_from_list s p).heap = removeHeap s.heap p := rfl
  have helemsR : (remove_from_list s p).elements = s.elements - 1 := rfl
  rw [chain_iff_seg] at hc
  obtain ⟨tl, hseg⟩ := hc
  rw [chainSeg_append] at hseg
  obtain ⟨mid, midtl, hsegl, hsegpr⟩ := hseg
  rw [chainSeg_cons] at hsegpr
  obtain ⟨hmid, hP, hsegr⟩ := hsegpr
  cases l with
  | nil =>
    rw [chainSeg_nil] at hsegl
    obtain ⟨hhd_mid, hmidtl⟩ := hsegl
    rw [← hmidtl] at hP
    have hheadR : (remove_from_list s p).head = (s.heap p).next := by
      simp only [remove_from_list, hP]
    cases r with
    | nil =>
      rw [chainSeg_nil] at hsegr
      obtain ⟨hN, _⟩ := hsegr
      refine ⟨?_, ?_, by simp⟩
      · show chain (remove_from_list s p).heap (remove_from_list s p).head none []
        rw [chain_nil, hheadR, hN]
      · rw [helemsR, he]
        simp
    | cons n r' =>
      rw [chainSeg_cons] at hsegr
      obtain ⟨hN, hnprev, hsegr'⟩ := hsegr
      have hnp : n ≠ p := fun he2 => hpr2 (he2 ▸ List.mem_cons_self _ _)
      have hnr' : n ∉ r' := (List.nodup_cons.mp hrn).1
      have hpr' : p ∉ r' := fun hm => hpr2 (List.mem_cons_of_mem _ hm)
      have hHn : removeHeap s.heap p n =
          { prev := none, next := (s.heap n).next } := by
        simp [removeHeap, Heap.update, hP, hN, hnp, Ne.symm hnp]
      have hHother : ∀ x, x ≠ n → x ≠ p →
          removeHeap s.heap p x = s.heap x := by
        intro x hxn hxp
        simp [removeHeap, Heap.update, hP, hN, hxn, hxp]
      refine ⟨?_, ?_, hnlr⟩
      · show chain (remove_from_list s p).heap (remove_from_list s p).head none
          ([] ++ n :: r')
        rw [hheapR, hheadR, hN, List.nil_append, chain_cons]
        refine ⟨rfl, by rw [hHn], ?_⟩
        rw [hHn]
        show chain _ ((s.heap n).next) (some n) r'
        rw [chain_congr _ s.heap r' _ _
          (fun x hx => hHother x (fun he2 => hnr' (he2 ▸ hx))
            (fun he2 => hpr' (he2 ▸ hx)))]
        exact (chain_iff_seg s.heap r' _ _).mpr ⟨tl, hsegr'⟩
      · rw [helemsR, he]
        simp
  | cons a l'' =>
    obtain ⟨q, hql, hmidtl, hqnext⟩ :=
      chainSeg_last s.heap l'' a _ _ midtl mid hsegl
    rw [hmid] at hqnext
    rw [hmidtl] at hP
    have hqp : q ≠ p := fun he2 => hpl (he2 ▸ hql)
    have hqpr : q ∉ p :: r := hdisj hql
    have hqr : q ∉ r := fun hm => hqpr (List.mem_cons_of_mem _ hm)
    have hheadR : (remove_from_list s p).head = s.head := by
      simp only [remove_from_list, hP]
    rw [hmid] at hsegl
    cases r with
    | nil =>
      rw [chainSeg_nil] at hsegr
      obtain ⟨hN, htlp⟩ := hsegr
      have hHq : removeHeap s.heap p q =
          { prev := (s.heap q).prev, next := none } := by
        simp [removeHeap, Heap.update, hP, hN, hqp, Ne.symm hqp]
      have hHother : ∀ x, x ≠ q → x ≠ p →
          removeHeap s.heap p x = s.heap x := by
        intro x hxq hxp
        simp [removeHeap, Heap.update, hP, hN, hqp, Ne.symm hqp, hxq, hxp]
      refine ⟨?_, ?_, hnlr⟩
      · show chain (remove_from_list s p).heap (remove_from_list s p).head none
          ((a :: l'') ++ [])
        rw [hheapR, hheadR, List.append_nil, chain_iff_seg]
        refine ⟨midtl, ?_⟩
        apply chainSeg_retarget s.heap (removeHeap s.heap p) none q (a :: l'')
          s.head none midtl (some p) (List.cons_ne_nil _ _) hsegl hln hmidtl
        · intro x hx
          by_cases hxq : x = q
          · rw [hxq, hHq]
          · rw [hHother x hxq (fun he2 => hpl (he2 ▸ hx))]
        · intro x hx hxq
          rw [hHother x hxq (fun he2 => hpl (he2 ▸ hx))]
        · rw [hHq]
      · rw [helemsR, he]
        simp
    | cons n r' =>
      rw [chainSeg_cons] at hsegr
      obtain ⟨hN, hnprev, hsegr'⟩ := hsegr
      have hnp : n ≠ p := fun he2 => hpr2 (he2 ▸ List.mem_cons_self _ _)
      have hnq : n ≠ q := fun he2 => hqr (he2 ▸ List.mem_cons_self _ _)
      have hnr' : n ∉ r' := (List.nodup_cons.mp hrn).1
      have hpr' : p ∉ r' := fun hm => hpr2 (List.mem_cons_of_mem _ hm)
      have hqr' : q ∉ r' := fun hm => hqr (List.mem_cons_of_mem _ hm)
      have hHq : removeHeap s.heap p q =
          { prev := (s.heap q).prev, next := some n } := by
        simp [removeHeap, Heap.update, hP, hN, hqp, Ne.symm hqp, hnq,
          Ne.symm hnq, hnp, Ne.symm hnp]
      have hHn : removeHeap s.heap p n =
          { prev := some q, next := (s.heap n).next } := by
        simp [removeHeap, Heap.update, hP, hN, hqp, Ne.symm hqp, hnq,
          Ne.symm hnq, hnp, Ne.symm hnp]
      have hHother : ∀ x, x ≠ q → x ≠ n → x ≠ p →
          removeHeap s.heap p x = s.heap x := by
        intro x hxq hxn hxp
        simp [removeHeap, Heap.update, hP, hN, hqp, Ne.symm hqp, hnq,
          Ne.symm hnq, hnp, Ne.symm hnp, hxq, hxn, hxp]
      refine ⟨?_, ?_, hnlr⟩
      · show chain (remove_from_list s p).heap (remove_from_list s p).head none
          ((a :: l'') ++ n :: r')
        rw [hheapR, hheadR, chain_iff_seg]
        refine ⟨tl, ?_⟩
        rw [chainSeg_append]
        refine ⟨some n, midtl, ?_, ?_⟩
        · apply chainSeg_retarget s.heap (removeHeap s.heap p) (some n) q
            (a :: l'') s.head none midtl (some p) (List.cons_ne_nil _ _) hsegl
            hln hmidtl
          · intro x hx
            by_cases hxq : x = q
            · rw [hxq, hHq]
            · rw [hHother x hxq
                (fun he2 => hdisj hx (by
                  rw [he2]
                  exact List.mem_cons_of_mem _ (List.mem_cons_self _ _)))
                (fun he2 => hpl (he2 ▸ hx))]
          · intro x hx hxq
            rw [hHother x hxq
              (fun he2 => hdisj hx (by
                rw [he2]
                exact List.mem_cons_of_mem _ (List.mem_cons_self _ _)))
              (fun he2 => hpl (he2 ▸ hx))]
          · rw [hHq]
        · rw [chainSeg_cons]
          refine ⟨rfl, by rw [hHn, hmidtl], ?_⟩
          rw [hHn]
          show chainSeg _ ((s.heap n).next) (some n) tl none r'
          rw [chainSeg_congr (removeHeap s.heap p) s.heap r' _ _ _ _
            (fun x hx => hHother x (fun he2 => hqr' (he2 ▸ hx))
              (fun he2 => hnr' (he2 ▸ hx)) (fun he2 => hpr' (he2 ▸ hx)))]
          exact hsegr'
      · rw [helemsR, he]
        simp
        omega

theorem validFrom_run : ∀ (ops : List Op) (s : ListState) (xs : List Nat),
    isList s xs → validFrom s xs ops → ∃ ys, isList (run s ops) ys
  | [], s, xs, hl, _ => ⟨xs, hl⟩
  | op :: ops, s, xs, hl, hv => by
    obtain ⟨hop, hrest⟩ := hv
    cases op with
    | insert p =>
      exact validFrom_run ops _ _
        (insert_front_preserves s xs p hl hop.1 hop.2) hrest
    | remove p =>
      exact validFrom_run ops _ _ (remove_preserves s xs p hl hop) hrest
    | pop =>
      exact validFrom_run ops _ _ (pop_preserves s xs hl) hrest

theorem chain_head_prev (h : Heap) (hd : Option Nat) (xs : List Nat) (x : Nat)
    (hc : chain h hd none xs) (hx : hd = some x) : (h x).prev = none := by
  cases xs with
  | nil =>
    rw [chain_nil] at hc
    rw [hc] at hx
    exact Option.noConfusion hx
  | cons y ys =>
    rw [chain_cons] at hc
    rw [hx] at hc
    injection hc.1 with hxy
    rw [hxy]
    exact hc.2.1

theorem chain_last_next (h : Heap) :
    ∀ (xs : List Nat) (hd pr : Option Nat) (t : Nat),
      chain h hd pr xs → xs.getLast? = some t → (h t).next = none
  | [], _, _, _, _, ht => by simp at ht
  | [x], hd, pr, t, hc, ht => by
    rw [List.getLast?_singleton] at ht
    injection ht with ht
    rw [chain_cons] at hc
    rw [← ht]
    exact hc.2.2
  | x :: y :: xs, hd, pr, t, hc, ht => by
    rw [chain_cons] at hc
    refine chain_last_next h (y :: xs) _ _ t hc.2.2 ?_
    rw [← ht]
    rfl

/-- C9: starting from an empty `PageList`, after any sequence of
`insert_front` (of an unlinked non-member page), `remove_from_list` (of a
member page) and `pop`, the `elements` counter equals the number of nodes
reachable from `head` along `next` links to the terminal null, the head's
`prev` link is null and the tail's `next` link is null. -/
theorem pageList_elements_reachable_invariant (h0 : Heap) (ops : List Op)
    (hv : validFrom ⟨h0, none, 0⟩ [] ops) :
    ∃ xs, chain (run ⟨h0, none, 0⟩ ops).heap (run ⟨h0, none, 0⟩ ops).head
        none xs ∧
      (run ⟨h0, none, 0⟩ ops).elements = xs.length ∧ xs.Nodup ∧
      (∀ x, (run ⟨h0, none, 0⟩ ops).head = some x →
        ((run ⟨h0, none, 0⟩ ops).heap x).prev = none) ∧
      (∀ t, xs.getLast? = some t →
        ((run ⟨h0, none, 0⟩ ops).heap t).next = none) := by
  obtain ⟨xs, hc, he, hn⟩ :=
    validFrom_run ops ⟨h0, none, 0⟩ [] ⟨rfl, rfl, List.nodup_nil⟩ hv
  exact ⟨xs, hc, he, hn,
    fun x hx => chain_head_prev _ _ xs x hc hx,
    fun t ht => chain_last_next _ xs _ _ t hc ht⟩

theorem pageList_invariant_witness :
    validFrom ⟨fun _ => ⟨none, none⟩, none, 0⟩ [] [Op.insert 5] ∧
    ∃ xs,
      chain (run ⟨fun _ => ⟨none, none⟩, none, 0⟩ [Op.insert 5]).heap
        (run ⟨fun _ => ⟨none, none⟩, none, 0⟩ [Op.insert 5]).head none xs ∧
      (run ⟨fun _ => ⟨none, none⟩, none, 0⟩ [Op.insert 5]).elements =
        xs.length ∧ xs.Nodup ∧
      (∀ x, (run ⟨fun _ => ⟨none, none⟩, none, 0⟩ [Op.insert 5]).head =
          some x →
        ((run ⟨fun _ => ⟨none, none⟩, none, 0⟩ [Op.insert 5]).heap x).prev =
          none) ∧
      (∀ t, xs.getLast? = some t →
        ((run ⟨fun _ => ⟨none, none⟩, none, 0⟩ [Op.insert 5]).heap t).next =
          none) :=
  ⟨⟨⟨rfl, by simp⟩, trivial⟩,
    pageList_elements_reachable_invariant (fun _ => ⟨none, none⟩)
      [Op.insert 5] ⟨⟨rfl, by simp⟩, trivial⟩⟩

end SlabMalloc

